import Mathlib

/-!
Shallow embedding of the core of `src/model.py` (NanoPoor-er): the hybrid
attention module `Attn` (rotary encoding, token selection, sliding window,
inference KV cache), the `DSMoE` expert router, and the expert-bias balancer
`Transformer.update_expert_biases`.

Scalars are modelled as exact rationals.  The transcendental primitives the
source obtains from the float runtime (`exp` inside softmax, `1/sqrt` inside
RMSNorm and the attention scale, `gelu`) are passed in as explicit function
parameters; randomness (noise samples, dropout draws) is likewise passed in
as explicit data, so every definition is a pure, executable function of its
inputs.
-/

namespace NanoPoor

/-- A tensor slice along its last axis: one token's channel vector. -/
abbrev Vec := List ℚ

/-- A two-axis slice, e.g. sequence position by channel. -/
abbrev Mat := List Vec

/-- Row-vector dot product, as used by every `nn.Linear` application. -/
def dot (v w : Vec) : ℚ := (List.zipWith (· * ·) v w).sum

/-- A bias-free `nn.Linear`: the weight is the list of output rows, each of
    input width; output coordinate `j` is the dot of row `j` with the input. -/
def linear (W : Mat) (x : Vec) : Vec := W.map (fun w => dot w x)

/-- Elementwise sum of two equal-length vectors. -/
def vadd (v w : Vec) : Vec := List.zipWith (· + ·) v w

/-- Elementwise difference of two equal-length vectors. -/
def vsub (v w : Vec) : Vec := List.zipWith (· - ·) v w

/-- Elementwise product of two equal-length vectors. -/
def vmul (v w : Vec) : Vec := List.zipWith (· * ·) v w

/-- Softmax along the last axis, parametrized by the exponential map `e`
    (the source uses the runtime `exp`, which is strictly positive). -/
def softmaxE (e : ℚ → ℚ) (v : Vec) : Vec := v.map (fun z => e z / (v.map e).sum)

/-- Ranking relation modelling `torch.topk`: position `i` ranks before `j`
    when its score is strictly larger, ties broken by the lower index (the
    tie-break of the underlying select primitive is unspecified; this is one
    consistent choice and no claim depends on it). -/
def rankRel (s : Vec) (i j : ℕ) : Prop :=
  s.getD j 0 < s.getD i 0 ∨ (s.getD i 0 = s.getD j 0 ∧ i ≤ j)

instance (s : Vec) : DecidableRel (rankRel s) := fun i j => by
  unfold rankRel; infer_instance

/-- Indices returned by `torch.topk(s, k)`: the `k` top-ranked positions. -/
def topkIndices (s : Vec) (k : ℕ) : List ℕ :=
  ((List.range s.length).insertionSort (rankRel s)).take k

/-- Values and indices returned by `torch.topk(s, k)`. -/
def topkPairs (s : Vec) (k : ℕ) : List (ℕ × ℚ) :=
  (topkIndices s k).map (fun i => (i, s.getD i 0))

/-- Per-token scalar importance scores, `self.importance_scorer(x)` with the
    trailing singleton axis squeezed away. -/
def importanceScores (w : Vec) (x : Mat) : Vec := x.map (fun tok => dot w tok)

/-- `Attn._select_important_tokens` for one batch item (source lines 189-197):
    take the top `min(num_tokens_to_keep, T)` indices by importance score,
    re-sort them ascending, and gather those tokens. -/
def select_important_tokens (numKeep : ℕ) (scores : Vec) (x : Mat) :
    Mat × List ℕ :=
  let idxs := (topkIndices scores (min numKeep x.length)).insertionSort (· ≤ ·)
  (idxs.map (fun i => x.getD i []), idxs)

/-- One row of `apply_rope` (source lines 79-86): the row splits into its
    (real, imaginary) halves (`x.chunk(2, dim=-1)`), which are rotated
    against the cosine/sine table rows and re-concatenated. -/
def ropeRow (c s row : Vec) : Vec :=
  let d2 := row.length / 2
  let re := row.take d2
  let im := row.drop d2
  vsub (vmul re c) (vmul im s) ++ vadd (vmul re s) (vmul im c)

/-- One tensor side of `apply_rope` (source lines 71-87) on one batch/head
    slice: the tables are truncated to the sequence length
    (`cos_freqs[:seq_len]`) and applied rowwise, so row `i` of the input is
    rotated with table row `i`. -/
def apply_rope (cosT sinT : Mat) (x : Mat) : Mat :=
  (x.zip ((cosT.take x.length).zip (sinT.take x.length))).map
    (fun p => ropeRow p.2.1 p.2.2 p.1)

/-- Both returned components of the source `apply_rope(x, y, freqs_cis)`;
    every call site passes the same tensor twice and keeps one component. -/
def apply_rope2 (cosT sinT : Mat) (x y : Mat) : Mat × Mat :=
  (apply_rope cosT sinT x, apply_rope cosT sinT y)

/-- Elementwise negation of a table; the inverse rotation negates the sine
    table. -/
def negTable (t : Mat) : Mat := t.map (fun r => r.map (fun q => -q))

/-- Failure modes relevant to a rotary application.  `shapeMismatch` is the
    generic broadcast error the tensor runtime raises on mismatched axes.
    `configurationError` is modelled from the spec: the spec's error taxonomy
    names a `ConfigurationError` for a rotary request beyond the precomputed
    table capacity, but no such error class exists anywhere in `src`. -/
inductive RopeErr where
  | shapeMismatch : RopeErr
  | configurationError : RopeErr
deriving DecidableEq

/-- The rotary application of `apply_rope` with the runtime's broadcasting on
    the sequence axis made explicit: slicing `cos_freqs[:seq_len]` keeps
    `min seq_len capacity` table rows, and the elementwise product then
    requires the two sequence axes to be equal or one of them to be `1`.
    The precomputed table is never regrown. -/
def applyRopeChecked (cosT sinT : Mat) (x : Mat) : Except RopeErr Mat :=
  if x.length ≤ cosT.length then Except.ok (apply_rope cosT sinT x)
  else if cosT.length = 1 then
    Except.ok (x.map (fun row => ropeRow (cosT.headD []) (sinT.headD []) row))
  else Except.error RopeErr.shapeMismatch

/-- `Attn._get_sliding_window_tokens` (source lines 199-206) for one batch
    item.  Python's `max(0, current_pos - window_size // 2)` is the truncated
    natural subtraction. -/
def get_sliding_window_tokens (training : Bool) (windowSize : ℕ)
    (currentPos : Option ℕ) (x : Mat) : Mat :=
  match currentPos with
  | none => x
  | some p =>
      if training then x
      else
        let ws := p - windowSize / 2
        let we := min x.length (ws + windowSize)
        (x.take we).drop ws

/-- The window-branch token set exactly as `Attn.forward` builds it (source
    line 267): `self._get_sliding_window_tokens(x)` is called without
    `current_pos`, which therefore defaults to `None`. -/
def forwardWindowTokens (training : Bool) (windowSize : ℕ) (x : Mat) : Mat :=
  get_sliding_window_tokens training windowSize none x

/-- The `h`-th head slice of width `d` of a flat per-token feature vector
    (`view(B, T, H, d)` followed by `transpose(1, 2)`). -/
def headSlice (d h : ℕ) (v : Vec) : Vec := (v.drop (h * d)).take d

/-- Selection-branch keys for head `h` exactly as `Attn.forward` builds them
    (source lines 252-264): select the important tokens, project them with
    `selection_k`, split each head vector into its no-position part (first
    `nope_head_dim` entries) and rotary part (last `rope_head_dim` entries),
    rotate the rotary part with `apply_rope` - whose tables are truncated to
    the compacted selected length `S` - and reassemble. -/
def selectionBranchK (nopeHd ropeHd numKeep h : ℕ) (scorerW : Vec) (selW : Mat)
    (cosT sinT : Mat) (x : Mat) : Mat :=
  let sel := (select_important_tokens numKeep (importanceScores scorerW x) x).1
  let ks := sel.map (fun tok => headSlice (ropeHd + nopeHd) h (linear selW tok))
  let nope := ks.map (List.take nopeHd)
  let rope := ks.map (List.drop nopeHd)
  List.zipWith (· ++ ·) nope (apply_rope cosT sinT rope)

/-- Rows of a table gathered at a list of positions. -/
def gatherRows (t : Mat) (pos : List ℕ) : Mat := pos.map (fun i => t.getD i [])

/-- Specification-side variant of the selection-branch keys, following the
    spec's words: identical to `selectionBranchK` except that token `j` of
    the selected set is rotated with the table rows at position `pos j`.
    With `pos` the selected tokens' original absolute indices this is what
    the claim asserts; with `pos = [0, ..., S-1]` it is the compacted
    behaviour. -/
def selectionBranchKAt (pos : List ℕ) (nopeHd ropeHd numKeep h : ℕ)
    (scorerW : Vec) (selW : Mat) (cosT sinT : Mat) (x : Mat) : Mat :=
  let sel := (select_important_tokens numKeep (importanceScores scorerW x) x).1
  let ks := sel.map (fun tok => headSlice (ropeHd + nopeHd) h (linear selW tok))
  let nope := ks.map (List.take nopeHd)
  let rope := ks.map (List.drop nopeHd)
  List.zipWith (· ++ ·) nope
    (apply_rope (gatherRows cosT pos) (gatherRows sinT pos) rope)

/-- Overwrite `buf[start : start + vals.length]` with `vals`: the tensor
    slice assignment `self.k_cache[:, :, start:end] = vals`. -/
def writeSlice (buf : Mat) (start : ℕ) (vals : Mat) : Mat :=
  buf.take start ++ vals ++ buf.drop (start + vals.length)

/-- One (batch item, head) slice of the inference KV cache owned by `Attn`:
    fixed `ctx_len`-row key/value buffers plus the fill pointer
    `self.cache_filled`. -/
structure KVCache where
  kBuf : Mat
  vBuf : Mat
  filled : ℕ

/-- A freshly allocated cache slice (`torch.zeros`, fill pointer 0) with key
    width `kw` and value width `vw` (source lines 287-290). -/
def freshKV (ctxLen kw vw : ℕ) : KVCache :=
  ⟨List.replicate ctxLen (List.replicate kw 0),
    List.replicate ctxLen (List.replicate vw 0), 0⟩

/-- One inference-mode cache append (source lines 291-296): clip the `T` new
    timesteps to the remaining capacity (`min (filled + T) ctx_len`), write
    the clipped prefix at the fill pointer, and advance the pointer. -/
def cacheAppend (ctxLen : ℕ) (st : KVCache) (newK newV : Mat) : KVCache :=
  let newFilled := min (st.filled + newK.length) ctxLen
  { kBuf := writeSlice st.kBuf st.filled (newK.take (newFilled - st.filled))
    vBuf := writeSlice st.vBuf st.filled (newV.take (newFilled - st.filled))
    filled := newFilled }

/-- The sign function `torch.sign` on a rational scalar. -/
def qsign (q : ℚ) : ℚ := if q < 0 then -1 else if q = 0 then 0 else 1

/-- `UnitCenteredNoise.forward` (source lines 330-342): multiplicative noise
    `x * (u * scaling + base)` with `base = 1 - scaling * (1/2)` and the
    drawn uniform sample `u` supplied as explicit data; identity in eval
    mode. -/
def unitCenteredNoise (scaling : ℚ) (training : Bool) (sample x : Vec) :
    Vec :=
  if training then
    List.zipWith (fun xi u => xi * (u * scaling + (1 - scaling * (1/2))))
      x sample
  else x

/-- The router gate `nn.Sequential(Linear, UnitCenteredNoise, Softmax)` of
    `DSMoE` (source lines 352-356) on one flattened token, parametrized by
    the exponential map and the noise sample. -/
def gateForward (e : ℚ → ℚ) (W : Mat) (scaling : ℚ) (training : Bool)
    (sample tok : Vec) : Vec :=
  softmaxE e (unitCenteredNoise scaling training sample (linear W tok))

/-- The biased gate values `gate_val_continuous + self.expert_bias` (source
    line 363) for one token. -/
def biasedGate (e : ℚ → ℚ) (W : Mat) (scaling : ℚ) (training : Bool)
    (bias sample tok : Vec) : Vec :=
  vadd (gateForward e W scaling training sample tok) bias

/-- `Tensor.scatter_add_` along the expert axis for one row: each
    (index, value) pair accumulates into its position, exactly like the
    source's loop of `scatter_add_` calls over the `num_exp` columns. -/
def scatterAdd (row : Vec) (pairs : List (ℕ × ℚ)) : Vec :=
  pairs.foldl (fun r p => r.set p.1 (r.getD p.1 0 + p.2)) row

/-- One token's row of the router weights built by `DSMoE.forward` (source
    lines 362-374): add the persistent bias to the continuous gate, take the
    top `num_exp - 1` experts, renormalize their weights to sum 1, prepend
    the shared expert (index 0, weight `1/num_exp`; the selected weights are
    rescaled by `(num_exp-1)/num_exp`), shift the selected indices by one and
    scatter-add everything into a zero row of width `num_experts`. -/
def routerRow (e : ℚ → ℚ) (nE nexp : ℕ) (W : Mat) (scaling : ℚ)
    (training : Bool) (bias sample tok : Vec) : Vec :=
  let pairs := topkPairs (biasedGate e W scaling training bias sample tok)
    (nexp - 1)
  let ssum := (pairs.map Prod.snd).sum
  let gateVals := (1 : ℚ) / nexp ::
    pairs.map (fun p => p.2 / ssum * ((nexp : ℚ) - 1) / nexp)
  let gateIdxs := 0 :: pairs.map (fun p => p.1 + 1)
  scatterAdd (List.replicate nE 0) (gateIdxs.zip gateVals)

/-- Number of nonzero entries of a vector. -/
def countNZ (v : Vec) : ℕ := (v.filter (fun q => decide (q ≠ 0))).length

/-- Observed per-expert load `c_i = router_weights[:, 1:].sum(dim=0)` (source
    line 576): column sums, over all tokens, of the routable expert columns
    (the shared expert column 0 is excluded). -/
def observedLoad (nE : ℕ) (rows : Mat) : Vec :=
  rows.foldl (fun acc r => vadd acc (r.drop 1)) (List.replicate (nE - 1) 0)

/-- One `update_expert_biases` step for one mixture-of-experts block (source
    lines 569-580): observed load `c_i`, mean target load
    `c̄ = total / (num_experts - 1)`, error `e_i = c_i - c̄`, and bias update
    `bias += update_rate * sign(e_i)`. -/
def updateExpertBias (nE : ℕ) (updateRate : ℚ) (rows : Mat) (bias : Vec) :
    Vec :=
  let c := observedLoad nE rows
  let cbar := c.sum / ((nE : ℚ) - 1)
  let err := c.map (fun ci => ci - cbar)
  List.zipWith (fun b ei => b + updateRate * qsign ei) bias err

/-- The branch-gate computation of `Attn.forward` (source line 226) for ONE
    batch item: per-position gate scores `self.branch_gate(x)`, the mean over
    this item's own sequence positions (`.mean(dim=1)`), then softmax over
    the 3 branches. -/
def branchWeightsItem (e : ℚ → ℚ) (gateW : Mat) (xb : Mat) : Vec :=
  let perPos := xb.map (fun tok => linear gateW tok)
  let meanScores := (perPos.foldl vadd (List.replicate gateW.length 0)).map
    (fun q => q / (xb.length : ℚ))
  softmaxE e meanScores

/-- Source line 226 at batch level,
    `F.softmax(self.branch_gate(x).mean(dim=1), dim=-1)`: one weight row per
    batch item, each computed from that item's tokens only. -/
def branchWeights (e : ℚ → ℚ) (gateW : Mat) (x : List Mat) : List Vec :=
  x.map (branchWeightsItem e gateW)

/-- Numeric primitives the source obtains from the float runtime, passed in
    explicitly: `e` models `exp` (inside every softmax), `rsqrt` models
    `x ↦ 1/√x` (the RMSNorm denominator and the attention scale `1/√E`), and
    `gelu` the GELU activation of the block compressor. -/
structure Prims where
  e : ℚ → ℚ
  rsqrt : ℚ → ℚ
  gelu : ℚ → ℚ

/-- One `nn.RMSNorm(dim, eps)` application:
    `x * rsqrt(mean(x²) + eps) * weight`. -/
def rmsNorm (rsqrt : ℚ → ℚ) (eps : ℚ) (w x : Vec) : Vec :=
  let ms := (x.map (fun q => q * q)).sum / (x.length : ℚ) + eps
  List.zipWith (fun wi xi => xi * rsqrt ms * wi) w x

/-- The learned parameters and configuration of one `Attn` module
    (`Attn.__init__`, source lines 96-173), with the source's attribute
    names.  Linear weights are row matrices; `cosTab`/`sinTab` are the
    `precompute_freqs_cis` tables; the two `block_compressor` layer weights
    and `intra_block_pos_encoding` belong to the token-compression mechanism. -/
structure Attn where
  nHead : ℕ
  nopeHeadDim : ℕ
  ropeHeadDim : ℕ
  vHeadDim : ℕ
  ctxLen : ℕ
  windowSize : ℕ
  numTokensToKeep : ℕ
  blockSize : ℕ
  rmsEps : ℚ
  dropoutP : ℚ
  lambV : ℚ
  compress_q_linear : Mat
  q_norm : Vec
  decompress_q_nope : Mat
  decompress_q_rope : Mat
  compress_kv_linear : Mat
  kv_norm : Vec
  decompress_k_nope : Mat
  decompress_v_linear : Mat
  k_rope_linear : Mat
  importance_scorer : Vec
  selection_k : Mat
  selection_v : Mat
  window_k : Mat
  window_v : Mat
  block_compressor_1 : Mat
  block_compressor_2 : Mat
  intra_block_pos_encoding : Mat
  branch_gate : Mat
  proj : Mat
  cosTab : Mat
  sinTab : Mat

/-- The random draws `forward` consumes in training mode, supplied as
    explicit data: per-branch attention-weight dropout draws indexed by
    (batch item, head, query position, key position) and the residual dropout
    draws indexed by (batch item, position, channel). -/
structure RandState where
  m1 : ℕ → ℕ → ℕ → ℕ → ℚ
  m2 : ℕ → ℕ → ℕ → ℕ → ℚ
  m3 : ℕ → ℕ → ℕ → ℕ → ℚ
  mRes : ℕ → ℕ → ℕ → ℚ

/-- `F.scaled_dot_product_attention` on one head of one batch item: causal
    masking keeps the keys `j ≤ i`, rowwise softmax of the `1/√E`-scaled
    scores, attention-weight dropout (training mode only, with the drawn mask
    rescaled by `1/(1-p)`), then the weighted sum of values. -/
def sdpa (e : ℚ → ℚ) (scale : ℚ) (causal training : Bool) (p : ℚ)
    (mask : ℕ → ℕ → ℚ) (q k v : Mat) : Mat :=
  (List.range q.length).map (fun i =>
    let qi := q.getD i []
    let keys := if causal then k.take (i + 1) else k
    let vals := if causal then v.take (i + 1) else v
    let w := softmaxE e (keys.map (fun kj => dot qi kj * scale))
    let w2 := if training then
        (List.range w.length).map (fun j => w.getD j 0 * mask i j / (1 - p))
      else w
    (List.zipWith (fun wj vj => vj.map (fun c => wj * c)) w2 vals).foldl vadd
      (List.replicate (v.headD []).length 0))

/-- `torch.nn.Dropout` on a matrix with explicit Bernoulli draws: in
    training, multiply elementwise by the draw rescaled by `1/(1-p)`;
    identity in eval mode. -/
def dropoutMat (training : Bool) (p : ℚ) (mask : ℕ → ℕ → ℚ) (x : Mat) :
    Mat :=
  if training then
    (List.range x.length).map (fun i =>
      (List.range (x.getD i []).length).map (fun j =>
        (x.getD i []).getD j 0 * mask i j / (1 - p)))
  else x

/-- `Attn._compress_tokens` (source lines 175-187): zero-pad the sequence to
    a multiple of `block_size`, add the intra-block positional encoding,
    flatten each block and run the two-layer compressor (Linear, GELU,
    Linear).  This is the only consumer of `block_compressor_1/2` and
    `intra_block_pos_encoding`; `forward` never calls it. -/
def Attn.compress_tokens (P : Attn) (gelu : ℚ → ℚ) (xb : Mat) : Mat :=
  let C := (xb.headD []).length
  let T := xb.length
  let padded := ((T + P.blockSize - 1) / P.blockSize) * P.blockSize
  let xp := xb ++ List.replicate (padded - T) (List.replicate C 0)
  let blocks := (List.range (padded / P.blockSize)).map (fun bi =>
    (List.range P.blockSize).map (fun j =>
      vadd (xp.getD (bi * P.blockSize + j) [])
        (P.intra_block_pos_encoding.getD j [])))
  blocks.map (fun blk =>
    linear P.block_compressor_2
      ((linear P.block_compressor_1 blk.flatten).map gelu))

/-- The query pipeline of `Attn.forward` (source lines 213-224) for one
    batch item: low-rank compression, RMSNorm, nope/rope decompression, the
    rotary application on the rope subspace, and per-head recombination
    (nope part first, rotated rope part last). -/
def Attn.queryHeads (P : Attn) (pr : Prims) (xb : Mat) : List Mat :=
  let nq := (xb.map (fun t => linear P.compress_q_linear t)).map
    (fun t => rmsNorm pr.rsqrt P.rmsEps P.q_norm t)
  let qn := nq.map (fun t => linear P.decompress_q_nope t)
  let qr := nq.map (fun t => linear P.decompress_q_rope t)
  (List.range P.nHead).map (fun h =>
    List.zipWith (· ++ ·) (qn.map (headSlice P.nopeHeadDim h))
      (apply_rope P.cosTab P.sinTab (qr.map (headSlice P.ropeHeadDim h))))

/-- Branch 1 of `Attn.forward` (source lines 228-250) for one batch item:
    compressed keys and values, the shared single-head rotary key (divided by
    `n_head`, rotated, broadcast to every head), recombined per-head keys,
    and the optional cross-layer value mix
    `(1 - lamb_v) * value + lamb_v * v1`.  Returns (keys per head, values
    per head). -/
def Attn.branch1 (P : Attn) (pr : Prims) (xb : Mat)
    (v1b : Option (List Mat)) : List Mat × List Mat :=
  let nkv := (xb.map (fun t => linear P.compress_kv_linear t)).map
    (fun t => rmsNorm pr.rsqrt P.rmsEps P.kv_norm t)
  let knope := nkv.map (fun t => linear P.decompress_k_nope t)
  let vflat := nkv.map (fun t => linear P.decompress_v_linear t)
  let value0 := (List.range P.nHead).map (fun h =>
    vflat.map (headSlice P.vHeadDim h))
  let value1 := match v1b with
    | none => value0
    | some v1h => List.zipWith (fun vh wh =>
        List.zipWith (fun a b =>
          vadd (a.map (fun c => (1 - P.lambV) * c))
            (b.map (fun c => P.lambV * c))) vh wh) value0 v1h
  let kropeRot := apply_rope P.cosTab P.sinTab
    ((xb.map (fun t => linear P.k_rope_linear t)).map
      (fun r => r.map (fun c => c / (P.nHead : ℚ))))
  ((List.range P.nHead).map (fun h =>
    List.zipWith (· ++ ·) (knope.map (headSlice P.nopeHeadDim h)) kropeRot),
    value1)

/-- Branch 2 of `Attn.forward` (source lines 252-264) for one batch item:
    the selection branch keys (via `selectionBranchK`) and values per head. -/
def Attn.branch2 (P : Attn) (xb : Mat) : List Mat × List Mat :=
  let sel := (select_important_tokens P.numTokensToKeep
    (importanceScores P.importance_scorer xb) xb).1
  ((List.range P.nHead).map (fun h =>
    selectionBranchK P.nopeHeadDim P.ropeHeadDim P.numTokensToKeep h
      P.importance_scorer P.selection_k P.cosTab P.sinTab xb),
    (List.range P.nHead).map (fun h =>
      sel.map (fun t => headSlice P.vHeadDim h (linear P.selection_v t))))

/-- Branch 3 of `Attn.forward` (source lines 266-277) for one batch item:
    the sliding-window tokens as `forward` actually builds them (full
    sequence, since `current_pos` is never passed), projected to per-head
    keys with the rope subspace rotated, and per-head values. -/
def Attn.branch3 (P : Attn) (training : Bool) (xb : Mat) :
    List Mat × List Mat :=
  let wtok := forwardWindowTokens training P.windowSize xb
  let ks := wtok.map (fun t => linear P.window_k t)
  ((List.range P.nHead).map (fun h =>
    let kh := ks.map (headSlice (P.ropeHeadDim + P.nopeHeadDim) h)
    List.zipWith (· ++ ·) (kh.map (List.take P.nopeHeadDim))
      (apply_rope P.cosTab P.sinTab (kh.map (List.drop P.nopeHeadDim)))),
    (List.range P.nHead).map (fun h =>
      wtok.map (fun t => headSlice P.vHeadDim h (linear P.window_v t))))

/-- The per-item tail of `Attn.forward` (source lines 279-310): run the three
    branch attentions (with the global branch keys/values either the fresh
    branch-1 projections in training, or the filled cache prefix in
    inference, passed as `kg`), blend them with the branch-gate weights,
    merge heads, project and apply residual dropout.  Returns the item's
    output rows and its mixed `value_1` heads. -/
def Attn.forwardItem (P : Attn) (pr : Prims) (training : Bool)
    (m1 m2 m3 : ℕ → ℕ → ℕ → ℚ) (mRes : ℕ → ℕ → ℚ) (xb : Mat)
    (v1b : Option (List Mat)) (kg : Option (List Mat × List Mat)) :
    Mat × List Mat :=
  let T := xb.length
  let scale := pr.rsqrt (((P.ropeHeadDim + P.nopeHeadDim : ℕ)) : ℚ)
  let qh := Attn.queryHeads P pr xb
  let wb := branchWeightsItem pr.e P.branch_gate xb
  let b1 := Attn.branch1 P pr xb v1b
  let b2 := Attn.branch2 P xb
  let b3 := Attn.branch3 P training xb
  let g := match kg with
    | none => b1
    | some kv => kv
  let heads := (List.range P.nHead).map (fun h =>
    let o1 := sdpa pr.e scale true training P.dropoutP (m1 h)
      (qh.getD h []) (g.1.getD h []) (g.2.getD h [])
    let o2 := sdpa pr.e scale false training P.dropoutP (m2 h)
      (qh.getD h []) (b2.1.getD h []) (b2.2.getD h [])
    let o3 := sdpa pr.e scale true training P.dropoutP (m3 h)
      (qh.getD h []) (b3.1.getD h []) (b3.2.getD h [])
    (List.range T).map (fun t =>
      vadd (vadd ((o1.getD t []).map (fun c => wb.getD 0 0 * c))
          ((o2.getD t []).map (fun c => wb.getD 1 0 * c)))
        ((o3.getD t []).map (fun c => wb.getD 2 0 * c))))
  let merged := (List.range T).map (fun t =>
    (heads.map (fun hm => hm.getD t [])).flatten)
  (dropoutMat training P.dropoutP mRes (merged.map (fun r => linear P.proj r)),
    b1.2)

/-- The inference KV cache owned by one `Attn` module: per batch item and per
    head, fixed `ctx_len`-row key and value buffers, plus the shared fill
    pointer `self.cache_filled`. -/
structure InferCache where
  kC : List (List Mat)
  vC : List (List Mat)
  filled : ℕ

/-- A zeroed cache for batch size `B` (source lines 287-290). -/
def Attn.freshCache (P : Attn) (B : ℕ) : InferCache :=
  ⟨(List.range B).map (fun _ => (List.range P.nHead).map (fun _ =>
      List.replicate P.ctxLen
        (List.replicate (P.ropeHeadDim + P.nopeHeadDim) 0))),
    (List.range B).map (fun _ => (List.range P.nHead).map (fun _ =>
      List.replicate P.ctxLen (List.replicate P.vHeadDim 0))), 0⟩

/-- `Attn.forward` (source lines 208-311) at batch level, with the module's
    mutable state (`training` flag, random draws, inference cache) passed
    explicitly.  In training mode the cache fill pointer is reset and the
    fresh branch-1 keys/values are attended over; in inference mode the cache
    is reallocated on a batch-size change, the clipped new timesteps are
    written at the fill pointer, and the global branch attends over the
    filled prefix.  Returns (output, value_1 per item and head, new cache). -/
def Attn.forward (P : Attn) (pr : Prims) (training : Bool) (rs : RandState)
    (cache : Option InferCache) (x : List Mat)
    (v1 : Option (List (List Mat))) :
    List Mat × List (List Mat) × Option InferCache :=
  let B := x.length
  if training then
    let outs := (List.range B).map (fun bi =>
      Attn.forwardItem P pr true (rs.m1 bi) (rs.m2 bi) (rs.m3 bi)
        (rs.mRes bi) (x.getD bi []) (v1.map (fun v => v.getD bi [])) none)
    (outs.map Prod.fst, outs.map Prod.snd,
      cache.map (fun c => { c with filled := 0 }))
  else
    let c0 := match cache with
      | some c => if c.kC.length = B then c else Attn.freshCache P B
      | none => Attn.freshCache P B
    let T := (x.headD []).length
    let newFilled := min (c0.filled + T) P.ctxLen
    let nWrite := newFilled - c0.filled
    let kv1 := (List.range B).map (fun bi =>
      Attn.branch1 P pr (x.getD bi []) (v1.map (fun v => v.getD bi [])))
    let c1 : InferCache :=
      ⟨(List.range B).map (fun bi => (List.range P.nHead).map (fun h =>
          writeSlice ((c0.kC.getD bi []).getD h []) c0.filled
            (((kv1.getD bi ([], [])).1.getD h []).take nWrite))),
        (List.range B).map (fun bi => (List.range P.nHead).map (fun h =>
          writeSlice ((c0.vC.getD bi []).getD h []) c0.filled
            (((kv1.getD bi ([], [])).2.getD h []).take nWrite))),
        newFilled⟩
    let outs := (List.range B).map (fun bi =>
      Attn.forwardItem P pr false (rs.m1 bi) (rs.m2 bi) (rs.m3 bi)
        (rs.mRes bi) (x.getD bi []) (v1.map (fun v => v.getD bi []))
        (some ((List.range P.nHead).map (fun h =>
            ((c1.kC.getD bi []).getD h []).take newFilled),
          (List.range P.nHead).map (fun h =>
            ((c1.vC.getD bi []).getD h []).take newFilled))))
    (outs.map Prod.fst, outs.map Prod.snd, some c1)

end NanoPoor

namespace NanoPoor

theorem length_topkIndices (s : Vec) (k : ℕ) :
    (topkIndices s k).length = min k s.length := by
  unfold topkIndices
  rw [List.length_take, (List.perm_insertionSort (rankRel s) _).length_eq,
    List.length_range]

theorem nodup_topkIndices (s : Vec) (k : ℕ) : (topkIndices s k).Nodup := by
  unfold topkIndices
  exact ((List.perm_insertionSort (rankRel s) _).nodup_iff.mpr
    (List.nodup_range _)).sublist (List.take_sublist _ _)

theorem mem_topkIndices_lt (s : Vec) (k : ℕ) {i : ℕ}
    (h : i ∈ topkIndices s k) : i < s.length := by
  unfold topkIndices at h
  have := (List.perm_insertionSort (rankRel s) (List.range s.length)).mem_iff.mp
    (List.take_subset _ _ h)
  simpa using this

/-- C9: for every input, the selected token indices of
    `Attn._select_important_tokens` form a strictly increasing sequence of
    length `min(num_tokens_to_keep, T)` whose entries all lie in `[0, T)`;
    in particular the selection count is clamped to `T` without error. -/
theorem C9_selected_indices_sorted_clamped (numKeep : ℕ) (w : Vec) (x : Mat) :
    (select_important_tokens numKeep (importanceScores w x) x).2.length =
        min numKeep x.length ∧
      List.Sorted (· < ·)
        (select_important_tokens numKeep (importanceScores w x) x).2 ∧
      ∀ i ∈ (select_important_tokens numKeep (importanceScores w x) x).2,
        i < x.length := by
  set idxs := (select_important_tokens numKeep (importanceScores w x) x).2
    with hidxs
  have hperm :
      List.Perm idxs (topkIndices (importanceScores w x) (min numKeep x.length)) :=
    List.perm_insertionSort _ _
  have hlenS : (importanceScores w x).length = x.length := List.length_map ..
  refine ⟨?_, ?_, ?_⟩
  · rw [hperm.length_eq, length_topkIndices, hlenS, min_assoc, min_self]
  · exact (List.sorted_insertionSort (· ≤ ·) _).lt_of_le
      (hperm.nodup_iff.mpr (nodup_topkIndices _ _))
  · intro i hi
    have := mem_topkIndices_lt _ _ (hperm.mem_iff.mp hi)
    omega

end NanoPoor

namespace NanoPoor

/-- C2 (code bug): in inference mode `forward` builds the window branch from
    the FULL input sequence, because it never supplies `current_pos` to
    `_get_sliding_window_tokens`; the fixed-size-window restriction the claim
    describes is dead code on the `forward` path. -/
theorem C2_window_branch_uses_full_sequence (training : Bool) (windowSize : ℕ)
    (x : Mat) : forwardWindowTokens training windowSize x = x := rfl

/-- C3 counterexample: a rotary application whose sequence length (3) exceeds
    the table capacity (2) fails with the runtime's broadcast shape error,
    not with the spec's `ConfigurationError`. -/
theorem C3_counterexample_shape_error_not_config_error :
    applyRopeChecked [[1], [1]] [[0], [0]] [[1, 0], [1, 0], [1, 0]] =
        Except.error RopeErr.shapeMismatch ∧
      (Except.error RopeErr.shapeMismatch : Except RopeErr Mat) ≠
        Except.error RopeErr.configurationError := by
  refine ⟨rfl, fun h => ?_⟩
  exact RopeErr.noConfusion (Except.error.inj h)

/-- C3 amended: if a rotary application is requested for a sequence length
    that exceeds the precomputed table capacity (and the table holds at least
    two positions, as any real configuration does - `ctx_len = 2048`), the
    operation fails with a broadcast shape error rather than proceeding
    silently or growing the table; no `ConfigurationError` class exists in
    the code. -/
theorem C3_oversized_request_shape_error (cosT sinT x : Mat)
    (hcap : 2 ≤ cosT.length) (hover : cosT.length < x.length) :
    applyRopeChecked cosT sinT x = Except.error RopeErr.shapeMismatch := by
  unfold applyRopeChecked
  rw [if_neg (by omega), if_neg (by omega)]

/-- Witness for C3: the amended theorem applied to the concrete oversized
    request of the counterexample. -/
theorem C3_oversized_request_shape_error_witness :
    applyRopeChecked [[1], [1]] [[0], [0]] [[1, 0], [1, 0], [1, 0]] =
      Except.error RopeErr.shapeMismatch :=
  C3_oversized_request_shape_error _ _ _ (by decide) (by decide)

end NanoPoor

namespace NanoPoor

theorem getD_zipWith_of_lt (f : ℚ → ℚ → ℚ) (a b : Vec) (j : ℕ)
    (hja : j < a.length) (hjb : j < b.length) :
    (List.zipWith f a b).getD j 0 = f (a.getD j 0) (b.getD j 0) := by
  rw [List.getD_eq_getElem _ _ (by simp [List.length_zipWith]; omega),
    List.getElem_zipWith, List.getD_eq_getElem _ _ hja,
    List.getD_eq_getElem _ _ hjb]

theorem rope_halves_eq (c : Vec) :
    ∀ s r im : Vec, s.length = c.length → r.length = c.length →
      im.length = c.length →
      (∀ j, j < c.length →
        c.getD j 0 * c.getD j 0 + s.getD j 0 * s.getD j 0 = 1) →
      vsub (vmul (vsub (vmul r c) (vmul im s)) c)
          (vmul (vadd (vmul r s) (vmul im c)) (s.map (fun q => -q))) = r ∧
        vadd (vmul (vsub (vmul r c) (vmul im s)) (s.map (fun q => -q)))
          (vmul (vadd (vmul r s) (vmul im c)) c) = im := by
  induction c with
  | nil =>
    intro s r im hs hr him _
    simp only [List.length_nil, List.length_eq_zero] at hs hr him
    subst hs; subst hr; subst him
    exact ⟨rfl, rfl⟩
  | cons ch ct ih =>
    intro s r im hs hr him hpy
    cases s with
    | nil => simp at hs
    | cons sh st =>
      cases r with
      | nil => simp at hr
      | cons rh rt =>
        cases im with
        | nil => simp at him
        | cons imh imt =>
          have hs' : st.length = ct.length := by simpa using hs
          have hr' : rt.length = ct.length := by simpa using hr
          have him' : imt.length = ct.length := by simpa using him
          have h0 := hpy 0 (by simp)
          simp only [List.getD_cons_zero] at h0
          have htl := ih st rt imt hs' hr' him' (fun j hj => by
            have := hpy (j + 1) (by simp; omega)
            simpa using this)
          simp only [vsub, vmul, vadd, List.zipWith_cons_cons, List.map_cons,
            List.cons.injEq]
          refine ⟨⟨?_, ?_⟩, ?_, ?_⟩
          · linear_combination rh * h0
          · exact htl.1
          · linear_combination imh * h0
          · exact htl.2

theorem ropeRow_eq_append (c s row : Vec) (hrow : row.length = 2 * c.length) :
    ropeRow c s row =
      vsub (vmul (row.take c.length) c) (vmul (row.drop c.length) s) ++
        vadd (vmul (row.take c.length) s) (vmul (row.drop c.length) c) := by
  unfold ropeRow
  rw [hrow, Nat.mul_div_cancel_left _ (by norm_num : 0 < 2)]

theorem ropeRow_roundtrip (c s row : Vec) (hs : s.length = c.length)
    (hrow : row.length = 2 * c.length)
    (hpy : ∀ j, j < c.length →
      c.getD j 0 * c.getD j 0 + s.getD j 0 * s.getD j 0 = 1) :
    ropeRow c (s.map (fun q => -q)) (ropeRow c s row) = row := by
  have hre : (row.take c.length).length = c.length := by simp; omega
  have him : (row.drop c.length).length = c.length := by simp; omega
  obtain ⟨h1, h2⟩ :=
    rope_halves_eq c s (row.take c.length) (row.drop c.length) hs hre him hpy
  have hA : (vsub (vmul (row.take c.length) c)
      (vmul (row.drop c.length) s)).length = c.length := by
    simp [vsub, vmul]; omega
  have hB : (vadd (vmul (row.take c.length) s)
      (vmul (row.drop c.length) c)).length = c.length := by
    simp [vadd, vmul]; omega
  rw [ropeRow_eq_append c s row hrow,
    ropeRow_eq_append c (s.map (fun q => -q)) _ (by simp [hA, hB]; omega),
    List.take_left' hA, List.drop_left' hA, h1, h2, List.take_append_drop]

theorem apply_rope_cons (ch sh : Vec) (ct st : Mat) (row : Vec) (xt : Mat) :
    apply_rope (ch :: ct) (sh :: st) (row :: xt) =
      ropeRow ch sh row :: apply_rope ct st xt := by
  simp [apply_rope]

theorem apply_rope_getD (x : Mat) : ∀ (cosT sinT : Mat) (i : ℕ),
    i < x.length → x.length ≤ cosT.length → x.length ≤ sinT.length →
    (apply_rope cosT sinT x).getD i [] =
      ropeRow (cosT.getD i []) (sinT.getD i []) (x.getD i []) := by
  induction x with
  | nil => intro _ _ i hi _ _; simp at hi
  | cons row xt ih =>
    intro cosT sinT i hi hc hs
    cases cosT with
    | nil => simp at hc
    | cons ch ct =>
      cases sinT with
      | nil => simp at hs
      | cons sh st =>
        rw [apply_rope_cons]
        cases i with
        | zero => simp
        | succ n =>
          simp only [List.getD_cons_succ]
          exact ih ct st n (by simpa using hi) (by simpa using hc)
            (by simpa using hs)

end NanoPoor

namespace NanoPoor

theorem getD_take_of_lt (l : Vec) (n j : ℕ) (hj : j < n) (hl : j < l.length) :
    (l.take n).getD j 0 = l.getD j 0 := by
  rw [List.getD_eq_getElem _ _ (by simp; omega), List.getElem_take,
    List.getD_eq_getElem _ _ hl]

theorem getD_drop_add (l : Vec) (n j : ℕ) (h : n + j < l.length) :
    (l.drop n).getD j 0 = l.getD (n + j) 0 := by
  rw [List.getD_eq_getElem _ _ (by simp; omega), List.getElem_drop,
    List.getD_eq_getElem _ _ h]

theorem ropeRow_getD_re (c s row : Vec) (hs : s.length = c.length)
    (hrow : row.length = 2 * c.length) (j : ℕ) (hj : j < c.length) :
    (ropeRow c s row).getD j 0 =
      row.getD j 0 * c.getD j 0 - row.getD (j + c.length) 0 * s.getD j 0 := by
  have hA : (vsub (vmul (row.take c.length) c)
      (vmul (row.drop c.length) s)).length = c.length := by
    simp [vsub, vmul]; omega
  rw [ropeRow_eq_append c s row hrow, List.getD_append _ _ _ _ (by omega)]
  unfold vsub vmul
  rw [getD_zipWith_of_lt _ _ _ j (by first | omega | (simp; omega)) (by first | omega | (simp; omega)),
    getD_zipWith_of_lt _ _ _ j (by first | omega | (simp; omega)) (by omega),
    getD_zipWith_of_lt _ _ _ j (by first | omega | (simp; omega)) (by omega),
    getD_take_of_lt _ _ _ hj (by omega),
    getD_drop_add _ _ _ (by omega), Nat.add_comm c.length j]

theorem ropeRow_getD_im (c s row : Vec) (hs : s.length = c.length)
    (hrow : row.length = 2 * c.length) (j : ℕ) (hj : j < c.length) :
    (ropeRow c s row).getD (j + c.length) 0 =
      row.getD j 0 * s.getD j 0 + row.getD (j + c.length) 0 * c.getD j 0 := by
  have hA : (vsub (vmul (row.take c.length) c)
      (vmul (row.drop c.length) s)).length = c.length := by
    simp [vsub, vmul]; omega
  rw [ropeRow_eq_append c s row hrow,
    List.getD_append_right _ _ _ _ (by omega), hA, Nat.add_sub_cancel]
  unfold vadd vmul
  rw [getD_zipWith_of_lt _ _ _ j (by first | omega | (simp; omega)) (by first | omega | (simp; omega)),
    getD_zipWith_of_lt _ _ _ j (by first | omega | (simp; omega)) (by omega),
    getD_zipWith_of_lt _ _ _ j (by first | omega | (simp; omega)) (by omega),
    getD_take_of_lt _ _ _ hj (by omega),
    getD_drop_add _ _ _ (by omega), Nat.add_comm c.length j]

theorem apply_rope_roundtrip (x : Mat) : ∀ cosT sinT : Mat,
    x.length ≤ cosT.length → x.length ≤ sinT.length →
    (∀ i, i < x.length → (sinT.getD i []).length = (cosT.getD i []).length) →
    (∀ i, i < x.length → (x.getD i []).length = 2 * (cosT.getD i []).length) →
    (∀ i, i < x.length → ∀ j, j < (cosT.getD i []).length →
      (cosT.getD i []).getD j 0 * (cosT.getD i []).getD j 0 +
        (sinT.getD i []).getD j 0 * (sinT.getD i []).getD j 0 = 1) →
    apply_rope cosT (negTable sinT) (apply_rope cosT sinT x) = x := by
  induction x with
  | nil => intro cosT sinT _ _ _ _ _; rfl
  | cons row xt ih =>
    intro cosT sinT hc hsl hw hx hpy
    cases cosT with
    | nil => simp at hc
    | cons ch ct =>
      cases sinT with
      | nil => simp at hsl
      | cons sh st =>
        have hneg : negTable (sh :: st) =
            sh.map (fun q => -q) :: negTable st := rfl
        rw [apply_rope_cons, hneg, apply_rope_cons]
        have h0w : sh.length = ch.length := by simpa using hw 0 (by simp)
        have h0x : row.length = 2 * ch.length := by simpa using hx 0 (by simp)
        have h0p : ∀ j, j < ch.length →
            ch.getD j 0 * ch.getD j 0 + sh.getD j 0 * sh.getD j 0 = 1 :=
          fun j hj => by simpa using hpy 0 (by simp) j (by simpa using hj)
        rw [ropeRow_roundtrip ch sh row h0w h0x h0p]
        congr 1
        exact ih ct st (by simpa using hc) (by simpa using hsl)
          (fun i hi => by simpa using hw (i + 1) (by simp; omega))
          (fun i hi => by simpa using hx (i + 1) (by simp; omega))
          (fun i hi j hj => by
            simpa using hpy (i + 1) (by simp; omega) j (by simpa using hj))

/-- C7: `apply_rope` rotates the (real, imaginary) halves of the rotary
    subspace as `rotated_real = real*cos - imag*sin` and
    `rotated_imag = real*sin + imag*cos` per position, and composing this
    rotation with the inverse rotation obtained by negating the sine table
    reproduces the original vector exactly, for any position within table
    bounds.  The hypothesis that each table entry pair squares and sums to 1
    is exactly what the `precompute_freqs_cis` tables satisfy, since
    cos²θ + sin²θ = 1. -/
theorem C7_rope_rotation_formula_and_roundtrip (cosT sinT x : Mat)
    (hc : x.length ≤ cosT.length) (hs : x.length ≤ sinT.length)
    (hw : ∀ i, i < x.length → (sinT.getD i []).length = (cosT.getD i []).length)
    (hx2 : ∀ i, i < x.length →
      (x.getD i []).length = 2 * (cosT.getD i []).length)
    (hpy : ∀ i, i < x.length → ∀ j, j < (cosT.getD i []).length →
      (cosT.getD i []).getD j 0 * (cosT.getD i []).getD j 0 +
        (sinT.getD i []).getD j 0 * (sinT.getD i []).getD j 0 = 1) :
    (∀ i, i < x.length → ∀ j, j < (cosT.getD i []).length →
        ((apply_rope cosT sinT x).getD i []).getD j 0 =
            (x.getD i []).getD j 0 * (cosT.getD i []).getD j 0 -
              (x.getD i []).getD (j + (cosT.getD i []).length) 0 *
                (sinT.getD i []).getD j 0 ∧
          ((apply_rope cosT sinT x).getD i []).getD
              (j + (cosT.getD i []).length) 0 =
            (x.getD i []).getD j 0 * (sinT.getD i []).getD j 0 +
              (x.getD i []).getD (j + (cosT.getD i []).length) 0 *
                (cosT.getD i []).getD j 0) ∧
      apply_rope cosT (negTable sinT) (apply_rope cosT sinT x) = x := by
  constructor
  · intro i hi j hj
    rw [apply_rope_getD x cosT sinT i hi hc hs]
    exact ⟨ropeRow_getD_re _ _ _ (hw i hi) (hx2 i hi) j hj,
      ropeRow_getD_im _ _ _ (hw i hi) (hx2 i hi) j hj⟩
  · exact apply_rope_roundtrip x cosT sinT hc hs hw hx2 hpy

end NanoPoor

namespace NanoPoor

/-- Witness for C7: the rotation with the exact rational cosine/sine pair
    (3/5, 4/5) applied to the row (1, 2), then inverted, reproduces the row. -/
theorem C7_rope_rotation_formula_and_roundtrip_witness :
    apply_rope [[(3 : ℚ)/5]] (negTable [[(4 : ℚ)/5]])
        (apply_rope [[(3 : ℚ)/5]] [[(4 : ℚ)/5]] [[1, 2]]) = [[1, 2]] :=
  (C7_rope_rotation_formula_and_roundtrip [[(3 : ℚ)/5]] [[(4 : ℚ)/5]] [[1, 2]]
    (by decide) (by decide)
    (by
      intro i hi
      simp only [List.length_cons, List.length_nil] at hi
      have h0 : i = 0 := by omega
      subst h0; decide)
    (by
      intro i hi
      simp only [List.length_cons, List.length_nil] at hi
      have h0 : i = 0 := by omega
      subst h0; decide)
    (by
      intro i hi j hj
      simp only [List.length_cons, List.length_nil] at hi
      have h0 : i = 0 := by omega
      subst h0
      simp only [List.getD_cons_zero, List.length_cons, List.length_nil] at hj
      have h1 : j = 0 := by omega
      subst h1; norm_num)).2

theorem take_eq_gatherRows_range (t : Mat) (S : ℕ) (h : S ≤ t.length) :
    t.take S = gatherRows t (List.range S) := by
  apply List.ext_getElem
  · simp [gatherRows]; omega
  · intro i h1 h2
    simp only [List.length_take] at h1
    simp only [List.getElem_take, gatherRows, List.getElem_map,
      List.getElem_range]
    rw [List.getD_eq_getElem _ _ (by omega)]

theorem apply_rope_tables_congr (cosT cosT' sinT sinT' x : Mat)
    (hc : cosT.take x.length = cosT'.take x.length)
    (hs : sinT.take x.length = sinT'.take x.length) :
    apply_rope cosT sinT x = apply_rope cosT' sinT' x := by
  unfold apply_rope; rw [hc, hs]

theorem select_idxs_length (numKeep : ℕ) (scores : Vec) (x : Mat)
    (hsl : scores.length = x.length) :
    (select_important_tokens numKeep scores x).2.length =
      min numKeep x.length := by
  have hperm : List.Perm (select_important_tokens numKeep scores x).2
      (topkIndices scores (min numKeep x.length)) := List.perm_insertionSort _ _
  rw [hperm.length_eq, length_topkIndices, hsl, min_assoc, min_self]

theorem select_tokens_length (numKeep : ℕ) (scores : Vec) (x : Mat)
    (hsl : scores.length = x.length) :
    (select_important_tokens numKeep scores x).1.length =
      min numKeep x.length := by
  have h2 := select_idxs_length numKeep scores x hsl
  unfold select_important_tokens at h2 ⊢
  simpa using h2

/-- C1 counterexample: a concrete input on which the selection branch's
    rotary keys computed by the code (compacted positions, table truncated
    to `S`) differ from the spec's demand (rotary rows gathered at the
    selected tokens' original absolute indices).  Here token 1 of 2 is
    selected and the code rotates it with table row 0, not row 1. -/
theorem C1_counterexample_selection_rope_absolute_positions :
    selectionBranchK 1 2 1 0 [1] [[1], [1], [1]] [[1], [0]] [[0], [1]]
        [[0], [1]] ≠
      selectionBranchKAt
        ((select_important_tokens 1 (importanceScores [1] [[0], [1]])
            [[0], [1]]).2)
        1 2 1 0 [1] [[1], [1], [1]] [[1], [0]] [[0], [1]] [[0], [1]] := by
  norm_num [selectionBranchK, selectionBranchKAt, select_important_tokens,
    topkIndices, rankRel, importanceScores, dot, linear, headSlice,
    apply_rope, ropeRow, vmul, vadd, vsub, gatherRows,
    List.insertionSort, List.orderedInsert, List.range_succ]

/-- C1 amended: the selection branch applies the rotary encoding to the
    selected tokens' rotary key subspaces using their compacted positions
    `0..S-1` in the selected set (the truncated table rows), NOT their
    original absolute indices in the input sequence. -/
theorem C1_selection_rope_uses_compacted_positions
    (nopeHd ropeHd numKeep h : ℕ) (scorerW : Vec) (selW : Mat)
    (cosT sinT x : Mat)
    (hc : min numKeep x.length ≤ cosT.length)
    (hs : min numKeep x.length ≤ sinT.length) :
    selectionBranchK nopeHd ropeHd numKeep h scorerW selW cosT sinT x =
      selectionBranchKAt (List.range (min numKeep x.length)) nopeHd ropeHd
        numKeep h scorerW selW cosT sinT x := by
  have hsl : (importanceScores scorerW x).length = x.length := List.length_map ..
  have hlen :
      (((select_important_tokens numKeep (importanceScores scorerW x) x).1.map
            (fun tok => headSlice (ropeHd + nopeHd) h (linear selW tok))).map
          (List.drop nopeHd)).length = min numKeep x.length := by
    simp [select_tokens_length numKeep (importanceScores scorerW x) x hsl]
  simp only [selectionBranchK, selectionBranchKAt]
  congr 1
  apply apply_rope_tables_congr
  · rw [hlen, take_eq_gatherRows_range _ _ hc,
      List.take_of_length_le (by simp [gatherRows])]
  · rw [hlen, take_eq_gatherRows_range _ _ hs,
      List.take_of_length_le (by simp [gatherRows])]

/-- Witness for C1's amended theorem at the counterexample's concrete input. -/
theorem C1_selection_rope_uses_compacted_positions_witness :
    min 1 (([[(0 : ℚ)], [(1 : ℚ)]] : Mat).length) ≤
        ([[(1 : ℚ)], [(0 : ℚ)]] : Mat).length ∧
      selectionBranchK 1 2 1 0 [1] [[1], [1], [1]] [[1], [0]] [[0], [1]]
          [[0], [1]] =
        selectionBranchKAt
          (List.range (min 1 (([[(0 : ℚ)], [(1 : ℚ)]] : Mat).length)))
          1 2 1 0 [1] [[1], [1], [1]] [[1], [0]] [[0], [1]] [[0], [1]] :=
  ⟨by decide,
    C1_selection_rope_uses_compacted_positions 1 2 1 0 [1] [[1], [1], [1]]
      [[1], [0]] [[0], [1]] [[0], [1]] (by decide) (by decide)⟩

end NanoPoor

namespace NanoPoor

theorem cacheAppend_filled (ctxLen : ℕ) (st : KVCache) (newK newV : Mat) :
    (cacheAppend ctxLen st newK newV).filled =
      min (st.filled + newK.length) ctxLen := rfl

theorem replicate_fold_cacheAppend (ctxLen : ℕ) (krow vrow : Vec) :
    ∀ (n : ℕ) (st : KVCache), st.filled ≤ ctxLen →
    ((List.replicate n ([krow], [vrow])).foldl
        (fun s p => cacheAppend ctxLen s p.1 p.2) st).filled =
      min (st.filled + n) ctxLen := by
  intro n
  induction n with
  | zero => intro st h; simpa using (Nat.min_eq_left h).symm
  | succ m ih =>
    intro st h
    rw [List.replicate_succ, List.foldl_cons]
    rw [ih _ (Nat.min_le_right _ _)]
    simp only [cacheAppend_filled, List.length_cons, List.length_nil]
    omega

/-- C4: across every sequence of inference-mode forward calls the cache fill
    pointer never exceeds the maximum context length.  (i) Appending `T` new
    timesteps when `filled + T > ctx_len` writes only `ctx_len - filled`
    timesteps, leaves `filled = ctx_len` and preserves the buffer length (no
    error).  (ii) Any sequence of appends from a state within capacity keeps
    the pointer at most `ctx_len`.  (iii) After `n` single-token appends from
    an empty cache the pointer is `min n ctx_len` - in particular 2048 after
    2049 one-token decode steps with context length 2048. -/
theorem C4_cache_fill_pointer_clipped :
    (∀ (ctxLen : ℕ) (st : KVCache) (newK newV : Mat),
        st.filled ≤ ctxLen → st.kBuf.length = ctxLen →
        ctxLen < st.filled + newK.length →
        (cacheAppend ctxLen st newK newV).filled = ctxLen ∧
          (cacheAppend ctxLen st newK newV).kBuf =
            writeSlice st.kBuf st.filled (newK.take (ctxLen - st.filled)) ∧
          (newK.take (ctxLen - st.filled)).length = ctxLen - st.filled ∧
          (cacheAppend ctxLen st newK newV).kBuf.length = ctxLen) ∧
      (∀ (ctxLen : ℕ) (st : KVCache) (steps : List (Mat × Mat)),
        st.filled ≤ ctxLen →
        (steps.foldl (fun s p => cacheAppend ctxLen s p.1 p.2) st).filled ≤
          ctxLen) ∧
      (∀ (ctxLen n : ℕ) (krow vrow : Vec) (st : KVCache), st.filled = 0 →
        ((List.replicate n ([krow], [vrow])).foldl
            (fun s p => cacheAppend ctxLen s p.1 p.2) st).filled =
          min n ctxLen) := by
  refine ⟨?_, ?_, ?_⟩
  · intro ctxLen st newK newV hfill hbuf hover
    have hmin : min (st.filled + newK.length) ctxLen = ctxLen :=
      Nat.min_eq_right (by omega)
    refine ⟨by rw [cacheAppend_filled, hmin], ?_, ?_, ?_⟩
    · show writeSlice st.kBuf st.filled
          (newK.take (min (st.filled + newK.length) ctxLen - st.filled)) = _
      rw [hmin]
    · simp only [List.length_take]
      omega
    · show (writeSlice st.kBuf st.filled
          (newK.take (min (st.filled + newK.length) ctxLen - st.filled))).length
        = ctxLen
      rw [hmin]
      simp only [writeSlice, List.length_append, List.length_take,
        List.length_drop]
      omega
  · intro ctxLen st steps h
    induction steps generalizing st with
    | nil => simpa using h
    | cons p t ih =>
      rw [List.foldl_cons]
      exact ih _ (Nat.min_le_right _ _)
  · intro ctxLen n krow vrow st h
    rw [replicate_fold_cacheAppend ctxLen krow vrow n st (by omega), h]
    omega

/-- Witness for C4: a two-token append into a capacity-1 cache fills it to
    exactly 1, and 2049 single-token decode appends into a fresh
    2048-capacity cache leave the fill pointer at 2048. -/
theorem C4_cache_fill_pointer_clipped_witness :
    (cacheAppend 1 (freshKV 1 1 1) [[5], [6]] [[5], [6]]).filled = 1 ∧
      ((List.replicate 2049 ([[(1 : ℚ)]], [[(1 : ℚ)]])).foldl
          (fun s p => cacheAppend 2048 s p.1 p.2)
          (freshKV 2048 1 1)).filled = 2048 := by
  constructor
  · exact (C4_cache_fill_pointer_clipped.1 1 (freshKV 1 1 1) [[5], [6]]
      [[5], [6]] (by decide) (by decide) (by decide)).1
  · have h := C4_cache_fill_pointer_clipped.2.2 2048 2049 [1] [1]
      (freshKV 2048 1 1) rfl
    rw [h]
    decide

end NanoPoor

namespace NanoPoor

theorem scatterAdd_cons (row : Vec) (p : ℕ × ℚ) (t : List (ℕ × ℚ)) :
    scatterAdd row (p :: t) =
      scatterAdd (row.set p.1 (row.getD p.1 0 + p.2)) t := rfl

theorem length_scatterAdd (pairs : List (ℕ × ℚ)) : ∀ row : Vec,
    (scatterAdd row pairs).length = row.length := by
  induction pairs with
  | nil => intro row; rfl
  | cons p t ih =>
    intro row
    rw [scatterAdd_cons, ih]
    exact List.length_set ..

theorem sum_set_add (row : Vec) : ∀ (i : ℕ) (v : ℚ), i < row.length →
    (row.set i (row.getD i 0 + v)).sum = row.sum + v := by
  induction row with
  | nil => intro i v h; simp at h
  | cons a t ih =>
    intro i v h
    cases i with
    | zero => simp only [List.set_cons_zero, List.getD_cons_zero,
        List.sum_cons]; ring
    | succ n =>
      simp only [List.set_cons_succ, List.getD_cons_succ, List.sum_cons]
      rw [ih n v (by simpa using h)]
      ring

theorem sum_scatterAdd (pairs : List (ℕ × ℚ)) : ∀ row : Vec,
    (∀ p ∈ pairs, p.1 < row.length) →
    (scatterAdd row pairs).sum = row.sum + (pairs.map Prod.snd).sum := by
  induction pairs with
  | nil => intro row _; simp [scatterAdd]
  | cons p t ih =>
    intro row hin
    rw [scatterAdd_cons, ih _ (fun q hq => by
      rw [List.length_set]
      exact hin q (List.mem_cons_of_mem _ hq))]
    rw [sum_set_add row p.1 p.2 (hin p (List.mem_cons_self _ _))]
    simp only [List.map_cons, List.sum_cons]
    ring

theorem scatterAdd_getD_zero (pairs : List (ℕ × ℚ)) : ∀ row : Vec,
    (∀ p ∈ pairs, p.1 ≠ 0) →
    (scatterAdd row pairs).getD 0 0 = row.getD 0 0 := by
  induction pairs with
  | nil => intro row _; rfl
  | cons p t ih =>
    intro row h
    rw [scatterAdd_cons, ih _ (fun q hq => h q (List.mem_cons_of_mem _ hq))]
    rcases Nat.exists_eq_succ_of_ne_zero (h p (List.mem_cons_self _ _)) with
      ⟨m, hm⟩
    rw [hm]
    cases row with
    | nil => rfl
    | cons a t2 => simp

theorem countNZ_cons (a : ℚ) (t : Vec) :
    countNZ (a :: t) = (if a = 0 then 0 else 1) + countNZ t := by
  unfold countNZ
  rw [List.filter_cons]
  by_cases h : a = 0
  · simp [h]
  · simp [h]; omega

theorem countNZ_set_le (row : Vec) : ∀ (i : ℕ) (v : ℚ),
    countNZ (row.set i v) ≤ countNZ row + 1 := by
  induction row with
  | nil => intro i v; simp [countNZ]
  | cons a t ih =>
    intro i v
    cases i with
    | zero =>
      rw [List.set_cons_zero, countNZ_cons, countNZ_cons]
      by_cases hv : v = 0 <;> by_cases ha : a = 0 <;> simp [hv, ha] <;> omega
    | succ n =>
      rw [List.set_cons_succ, countNZ_cons, countNZ_cons, Nat.add_assoc]
      exact Nat.add_le_add_left (ih n v) _

theorem countNZ_scatterAdd (pairs : List (ℕ × ℚ)) : ∀ row : Vec,
    countNZ (scatterAdd row pairs) ≤ countNZ row + pairs.length := by
  induction pairs with
  | nil => intro row; simp [scatterAdd]
  | cons p t ih =>
    intro row
    rw [scatterAdd_cons]
    have h1 := ih (row.set p.1 (row.getD p.1 0 + p.2))
    have h2 := countNZ_set_le row p.1 (row.getD p.1 0 + p.2)
    simp only [List.length_cons]
    omega

theorem countNZ_replicate_zero (n : ℕ) :
    countNZ (List.replicate n 0) = 0 := by
  induction n with
  | zero => rfl
  | succ m ih => rw [List.replicate_succ, countNZ_cons, ih]; simp

theorem sum_map_div_mul_div (l : List (ℕ × ℚ)) (a b c : ℚ) :
    (l.map (fun p => p.2 / a * b / c)).sum =
      (l.map Prod.snd).sum / a * b / c := by
  induction l with
  | nil => simp
  | cons p t ih =>
    simp only [List.map_cons, List.sum_cons, ih]
    ring

end NanoPoor

namespace NanoPoor

theorem length_unitCenteredNoise (scaling : ℚ) (training : Bool)
    (sample x : Vec) (h : sample.length = x.length) :
    (unitCenteredNoise scaling training sample x).length = x.length := by
  unfold unitCenteredNoise
  split
  · simp [h]
  · rfl

theorem length_biasedGate (e : ℚ → ℚ) (W : Mat) (scaling : ℚ)
    (training : Bool) (bias sample tok : Vec) (hbs : sample.length = W.length)
    (hbb : bias.length = W.length) :
    (biasedGate e W scaling training bias sample tok).length = W.length := by
  unfold biasedGate vadd
  rw [List.length_zipWith]
  unfold gateForward softmaxE
  rw [List.length_map,
    length_unitCenteredNoise _ _ _ _ (by
      unfold linear; rw [List.length_map]; exact hbs)]
  unfold linear
  rw [List.length_map, hbb, min_self]

theorem length_topkPairs (s : Vec) (k : ℕ) :
    (topkPairs s k).length = min k s.length := by
  unfold topkPairs
  rw [List.length_map, length_topkIndices]

theorem mem_topkPairs_lt (s : Vec) (k : ℕ) {p : ℕ × ℚ}
    (h : p ∈ topkPairs s k) : p.1 < s.length := by
  unfold topkPairs at h
  obtain ⟨i, hi, rfl⟩ := List.mem_map.mp h
  exact mem_topkIndices_lt s k hi

/-- C5: every router-weight row produced by `DSMoE.forward` for one token has
    width `num_experts`, sums to 1, contains the shared expert column 0 with
    weight exactly `1/num_exp`, and has at most `num_exp` nonzero entries.
    Hypotheses: `1 ≤ num_exp ≤ num_experts`, the gate scores
    `num_experts - 1` routable experts, the bias and noise sample have
    matching width, and the selected top scores do not sum to zero - the
    float code would divide by zero there, and with the zero-initialized bias
    the selected softmax scores are strictly positive, so the hypothesis
    holds in every freshly initialized model. -/
theorem C5_router_row_normalized (e : ℚ → ℚ) (nE nexp : ℕ) (W : Mat)
    (scaling : ℚ) (training : Bool) (bias sample tok : Vec)
    (h1 : 1 ≤ nexp) (h2 : nexp ≤ nE) (hW : W.length = nE - 1)
    (hb : bias.length = nE - 1) (hsamp : sample.length = nE - 1)
    (hsum : ((topkPairs (biasedGate e W scaling training bias sample tok)
        (nexp - 1)).map Prod.snd).sum ≠ 0) :
    (routerRow e nE nexp W scaling training bias sample tok).length = nE ∧
      (routerRow e nE nexp W scaling training bias sample tok).sum = 1 ∧
      (routerRow e nE nexp W scaling training bias sample tok).getD 0 0 =
        1 / nexp ∧
      countNZ (routerRow e nE nexp W scaling training bias sample tok) ≤
        nexp := by
  have hnE : 1 ≤ nE := le_trans h1 h2
  have hblen : (biasedGate e W scaling training bias sample tok).length =
      nE - 1 :=
    (length_biasedGate e W scaling training bias sample tok
      (by rw [hW, hsamp]) (by rw [hW, hb])).trans hW
  set pairs := topkPairs (biasedGate e W scaling training bias sample tok)
    (nexp - 1) with hpairs
  have hplen : pairs.length = nexp - 1 := by
    rw [hpairs, length_topkPairs, hblen]
    omega
  have hmem : ∀ p ∈ pairs, p.1 < nE - 1 := fun p hp => by
    have := mem_topkPairs_lt _ _ hp
    omega
  set ssum := (pairs.map Prod.snd).sum with hssum
  set gateVals := (1 : ℚ) / nexp ::
    pairs.map (fun p => p.2 / ssum * ((nexp : ℚ) - 1) / nexp) with hgv
  set gateIdxs := (0 : ℕ) :: pairs.map (fun p => p.1 + 1) with hgi
  have hrr : routerRow e nE nexp W scaling training bias sample tok =
      scatterAdd (List.replicate nE 0) (gateIdxs.zip gateVals) := rfl
  have hlv : gateVals.length = nexp := by
    rw [hgv, List.length_cons, List.length_map, hplen]; omega
  have hli : gateIdxs.length = nexp := by
    rw [hgi, List.length_cons, List.length_map, hplen]; omega
  have hinrange : ∀ q ∈ gateIdxs.zip gateVals, q.1 < nE := by
    intro q hq
    obtain ⟨a, b⟩ := q
    have := (List.of_mem_zip hq).1
    rw [hgi] at this
    rcases List.mem_cons.mp this with h0 | hmap
    · omega
    · obtain ⟨p, hp, hpe⟩ := List.mem_map.mp hmap
      have := hmem p hp
      omega
  have hnexpQ : ((nexp : ℚ)) ≠ 0 := Nat.cast_ne_zero.mpr (by omega)
  refine ⟨?_, ?_, ?_, ?_⟩
  · rw [hrr, length_scatterAdd, List.length_replicate]
  · rw [hrr, sum_scatterAdd _ _ (fun p hp => by
      rw [List.length_replicate]; exact hinrange p hp)]
    rw [List.map_snd_zip _ _ (by rw [hlv, hli]), hgv]
    simp only [List.sum_cons, List.sum_replicate, smul_zero, zero_add]
    rw [sum_map_div_mul_div, ← hssum, div_self hsum]
    field_simp
  · rw [hrr, hgi, hgv, List.zip_cons_cons, scatterAdd_cons]
    rw [scatterAdd_getD_zero _ _ (fun q hq => by
      obtain ⟨a, b⟩ := q
      have := (List.of_mem_zip hq).1
      obtain ⟨p, hp, hpe⟩ := List.mem_map.mp this
      simp only at hpe ⊢
      omega)]
    obtain ⟨m, hm⟩ : ∃ m, nE = m + 1 := ⟨nE - 1, by omega⟩
    rw [hm, List.replicate_succ]
    simp
  · rw [hrr]
    have h1c := countNZ_scatterAdd (gateIdxs.zip gateVals)
      (List.replicate nE 0)
    have h2c := countNZ_replicate_zero nE
    have h3c : (gateIdxs.zip gateVals).length = nexp := by
      rw [List.length_zip, hlv, hli, min_self]
    omega

end NanoPoor

namespace NanoPoor

/-- Witness for C5 at a concrete 3-expert router with `num_exp = 2`, constant
    exponential surrogate, zero bias and eval-mode noise. -/
theorem C5_router_row_normalized_witness :
    (routerRow (fun _ => 1) 3 2 [[1], [1]] 0 false [0, 0] [0, 0]
        [1]).length = 3 ∧
      (routerRow (fun _ => 1) 3 2 [[1], [1]] 0 false [0, 0] [0, 0]
        [1]).sum = 1 ∧
      (routerRow (fun _ => 1) 3 2 [[1], [1]] 0 false [0, 0] [0, 0]
        [1]).getD 0 0 = 1 / (2 : ℚ) ∧
      countNZ (routerRow (fun _ => 1) 3 2 [[1], [1]] 0 false [0, 0] [0, 0]
        [1]) ≤ 2 := by
  have h := C5_router_row_normalized (fun _ => 1) 3 2 [[1], [1]] 0 false
    [0, 0] [0, 0] [1] (by omega) (by omega) rfl rfl rfl
    (by norm_num [topkPairs, topkIndices, rankRel, biasedGate, gateForward,
      softmaxE, unitCenteredNoise, linear, dot, vadd,
      List.insertionSort, List.orderedInsert, List.range_succ])
  refine ⟨h.1, h.2.1, ?_, h.2.2.2⟩
  simpa using h.2.2.1

end NanoPoor

namespace NanoPoor

theorem getD_replicate_zero (n i : ℕ) :
    (List.replicate n (0 : ℚ)).getD i 0 = 0 := by
  induction n generalizing i with
  | zero => rfl
  | succ m ih =>
    cases i with
    | zero => rfl
    | succ j => rw [List.replicate_succ, List.getD_cons_succ]; exact ih j

theorem foldl_vadd_drop_length (nE : ℕ) : ∀ (rows : Mat) (acc : Vec),
    (∀ r ∈ rows, r.length = nE) → acc.length = nE - 1 →
    (rows.foldl (fun a r => vadd a (r.drop 1)) acc).length = nE - 1 := by
  intro rows
  induction rows with
  | nil => intro acc _ h; simpa using h
  | cons r t ih =>
    intro acc hrows hacc
    rw [List.foldl_cons]
    refine ih _ (fun q hq => hrows q (List.mem_cons_of_mem _ hq)) ?_
    have hr := hrows r (List.mem_cons_self _ _)
    simp [vadd]
    omega

theorem foldl_vadd_drop_getD (nE : ℕ) : ∀ (rows : Mat) (acc : Vec),
    (∀ r ∈ rows, r.length = nE) → acc.length = nE - 1 →
    ∀ i, i < nE - 1 →
    (rows.foldl (fun a r => vadd a (r.drop 1)) acc).getD i 0 =
      acc.getD i 0 + (rows.map (fun r => r.getD (i + 1) 0)).sum := by
  intro rows
  induction rows with
  | nil => intro acc _ _ i _; simp
  | cons r t ih =>
    intro acc hrows hacc i hi
    have hr := hrows r (List.mem_cons_self _ _)
    rw [List.foldl_cons,
      ih _ (fun q hq => hrows q (List.mem_cons_of_mem _ hq))
        (by simp [vadd]; omega) i hi]
    unfold vadd
    rw [getD_zipWith_of_lt _ _ _ i (by omega) (by simp; omega),
      getD_drop_add r 1 i (by omega), Nat.add_comm 1 i]
    simp only [List.map_cons, List.sum_cons]
    ring

theorem length_observedLoad (nE : ℕ) (rows : Mat)
    (hrows : ∀ r ∈ rows, r.length = nE) :
    (observedLoad nE rows).length = nE - 1 :=
  foldl_vadd_drop_length nE rows _ hrows (List.length_replicate ..)

theorem sum_zipWith_signed (u : ℚ) : ∀ b err : Vec, b.length = err.length →
    (List.zipWith (fun bi ei => bi + u * qsign ei) b err).sum =
      b.sum + u * (err.map qsign).sum := by
  intro b
  induction b with
  | nil =>
    intro err h
    have : err = [] := List.length_eq_zero.mp h.symm
    subst this
    simp
  | cons bh bt ih =>
    intro err h
    cases err with
    | nil => simp at h
    | cons eh et =>
      simp only [List.zipWith_cons_cons, List.sum_cons, List.map_cons]
      rw [ih et (by simpa using h)]
      ring

theorem abs_qsign_le_one (q : ℚ) : |qsign q| ≤ 1 := by
  unfold qsign
  split_ifs <;> norm_num

theorem abs_sum_map_qsign (l : Vec) :
    |(l.map qsign).sum| ≤ (l.length : ℚ) := by
  induction l with
  | nil => simp
  | cons a t ih =>
    simp only [List.map_cons, List.sum_cons, List.length_cons]
    have h1 := abs_qsign_le_one a
    have h2 := abs_add (qsign a) ((t.map qsign).sum)
    push_cast
    linarith

/-- C6: one bias-balancer update computes the per-expert load `c_i` as the
    sum of routing weights over all tokens excluding the shared expert
    column, and adds `update_rate * sign(c_i - mean)` to the persistent bias;
    consequently every bias component changes by exactly `+update_rate`,
    `-update_rate`, or `0`, and the bias sum changes by at most
    `update_rate * (num_experts - 1)` in absolute value (for a nonnegative
    update rate). -/
theorem C6_bias_balancer_update (nE : ℕ) (updateRate : ℚ) (rows : Mat)
    (bias : Vec) (hE : 1 ≤ nE) (hu : 0 ≤ updateRate)
    (hb : bias.length = nE - 1) (hrows : ∀ r ∈ rows, r.length = nE) :
    (∀ i, i < nE - 1 →
        (observedLoad nE rows).getD i 0 =
          (rows.map (fun r => r.getD (i + 1) 0)).sum) ∧
      (∀ i, i < (updateExpertBias nE updateRate rows bias).length →
        (updateExpertBias nE updateRate rows bias).getD i 0 -
            bias.getD i 0 = updateRate ∨
          (updateExpertBias nE updateRate rows bias).getD i 0 -
            bias.getD i 0 = -updateRate ∨
          (updateExpertBias nE updateRate rows bias).getD i 0 -
            bias.getD i 0 = 0) ∧
      |(updateExpertBias nE updateRate rows bias).sum - bias.sum| ≤
        updateRate * ((nE : ℚ) - 1) := by
  have hclen : (observedLoad nE rows).length = nE - 1 :=
    length_observedLoad nE rows hrows
  have herr : ((observedLoad nE rows).map
      (fun ci => ci - (observedLoad nE rows).sum / ((nE : ℚ) - 1))).length =
        nE - 1 := by
    rw [List.length_map, hclen]
  refine ⟨?_, ?_, ?_⟩
  · intro i hi
    unfold observedLoad
    rw [foldl_vadd_drop_getD nE rows _ hrows (List.length_replicate ..) i hi,
      getD_replicate_zero, zero_add]
  · intro i hi
    unfold updateExpertBias at hi ⊢
    rw [List.length_zipWith] at hi
    rw [getD_zipWith_of_lt _ _ _ i (by omega) (by rw [herr]; omega)]
    have harith :
        bias.getD i 0 + updateRate * qsign ((((observedLoad nE rows).map
            (fun ci => ci - (observedLoad nE rows).sum /
              ((nE : ℚ) - 1)))).getD i 0) - bias.getD i 0 =
          updateRate * qsign ((((observedLoad nE rows).map
            (fun ci => ci - (observedLoad nE rows).sum /
              ((nE : ℚ) - 1)))).getD i 0) := by ring
    rw [harith]
    unfold qsign
    split_ifs
    · right; left; ring
    · right; right; ring
    · left; ring
  · unfold updateExpertBias
    rw [sum_zipWith_signed updateRate bias _ (by rw [herr, hb])]
    have hq : bias.sum + updateRate * ((((observedLoad nE rows).map
        (fun ci => ci - (observedLoad nE rows).sum / ((nE : ℚ) - 1))).map
          qsign).sum) - bias.sum =
        updateRate * ((((observedLoad nE rows).map
        (fun ci => ci - (observedLoad nE rows).sum / ((nE : ℚ) - 1))).map
          qsign).sum) := by ring
    rw [hq, abs_mul, abs_of_nonneg hu]
    have habs := abs_sum_map_qsign ((observedLoad nE rows).map
      (fun ci => ci - (observedLoad nE rows).sum / ((nE : ℚ) - 1)))
    rw [herr] at habs
    have hcast : (((nE - 1 : ℕ)) : ℚ) = (nE : ℚ) - 1 := by
      push_cast [hE]
      ring
    rw [hcast] at habs
    exact mul_le_mul_of_nonneg_left habs hu

/-- Witness for C6: one token routed half-and-half over a 2-expert layer with
    update rate 1 changes the bias sum by at most 1. -/
theorem C6_bias_balancer_update_witness :
    |(updateExpertBias 2 1 [[1/2, 1/2]] [0]).sum - ([0] : Vec).sum| ≤
      1 * ((2 : ℚ) - 1) := by
  have h := C6_bias_balancer_update 2 1 [[1/2, 1/2]] [0] (by omega)
    (by norm_num) rfl (by intro r hr; simp at hr; subst hr; rfl)
  simpa using h.2.2

end NanoPoor

namespace NanoPoor

theorem sum_map_div (l : Vec) (f : ℚ → ℚ) (d : ℚ) :
    (l.map (fun z => f z / d)).sum = (l.map f).sum / d := by
  induction l with
  | nil => simp
  | cons a t ih => simp only [List.map_cons, List.sum_cons, ih]; ring

theorem softmaxE_nonneg (e : ℚ → ℚ) (he : ∀ z, 0 < e z) (v : Vec) :
    ∀ q ∈ softmaxE e v, 0 ≤ q := by
  intro q hq
  obtain ⟨z, hz, rfl⟩ := List.mem_map.mp hq
  have hD : 0 < (v.map e).sum :=
    List.sum_pos _
      (fun a ha => by
        obtain ⟨w, _, rfl⟩ := List.mem_map.mp ha
        exact he w)
      (by simp [List.map_eq_nil_iff]; exact List.ne_nil_of_mem hz)
  exact le_of_lt (div_pos (he z) hD)

theorem softmaxE_sum_one (e : ℚ → ℚ) (he : ∀ z, 0 < e z) (v : Vec)
    (hv : v ≠ []) : (softmaxE e v).sum = 1 := by
  have hD : 0 < (v.map e).sum :=
    List.sum_pos _
      (fun a ha => by
        obtain ⟨w, _, rfl⟩ := List.mem_map.mp ha
        exact he w)
      (by simp [List.map_eq_nil_iff, hv])
  unfold softmaxE
  rw [sum_map_div, div_self (ne_of_gt hD)]

theorem length_softmaxE (e : ℚ → ℚ) (v : Vec) :
    (softmaxE e v).length = v.length := List.length_map ..

theorem foldl_vadd_length (n : ℕ) : ∀ (rows : Mat) (acc : Vec),
    (∀ r ∈ rows, r.length = n) → acc.length = n →
    (rows.foldl vadd acc).length = n := by
  intro rows
  induction rows with
  | nil => intro acc _ h; simpa using h
  | cons r t ih =>
    intro acc hrows hacc
    rw [List.foldl_cons]
    refine ih _ (fun q hq => hrows q (List.mem_cons_of_mem _ hq)) ?_
    have := hrows r (List.mem_cons_self _ _)
    simp [vadd]
    omega

theorem length_branchWeightsItem (e : ℚ → ℚ) (gateW : Mat) (xb : Mat) :
    (branchWeightsItem e gateW xb).length = gateW.length := by
  unfold branchWeightsItem
  rw [length_softmaxE, List.length_map]
  exact foldl_vadd_length gateW.length _ _
    (fun r hr => by
      obtain ⟨tok, _, rfl⟩ := List.mem_map.mp hr
      exact List.length_map ..)
    (List.length_replicate ..)

theorem branchWeights_getD (e : ℚ → ℚ) (gateW : Mat) (x : List Mat) (b : ℕ)
    (hb : b < x.length) :
    (branchWeights e gateW x).getD b [] =
      branchWeightsItem e gateW (x.getD b []) := by
  unfold branchWeights
  rw [List.getD_eq_getElem _ _ (by simpa using hb), List.getElem_map,
    List.getD_eq_getElem _ _ hb]

/-- C8: for every batch item the three branch-gate weights are nonnegative
    and sum to 1 (softmax over the 3 gate outputs), and each item's weights
    are computed from a mean over that item's own sequence positions only,
    so the result for one batch item does not depend on the other items in
    the batch.  The positivity hypothesis on the exponential surrogate is
    satisfied by the runtime `exp`. -/
theorem C8_branch_gate_weights (e : ℚ → ℚ) (gateW : Mat) (x : List Mat)
    (he : ∀ z, 0 < e z) (hg : gateW.length = 3) (b : ℕ) (hb : b < x.length) :
    ((branchWeights e gateW x).getD b []).length = 3 ∧
      (∀ q ∈ (branchWeights e gateW x).getD b [], 0 ≤ q) ∧
      ((branchWeights e gateW x).getD b []).sum = 1 ∧
      ∀ (xo : List Mat) (bo : ℕ), bo < xo.length →
        x.getD b [] = xo.getD bo [] →
        (branchWeights e gateW xo).getD bo [] =
          (branchWeights e gateW x).getD b [] := by
  rw [branchWeights_getD e gateW x b hb]
  refine ⟨?_, ?_, ?_, ?_⟩
  · rw [length_branchWeightsItem, hg]
  · exact fun q hq => softmaxE_nonneg e he _ q hq
  · refine softmaxE_sum_one e he _ ?_
    intro hnil
    have := congrArg List.length hnil
    rw [List.length_map,
      foldl_vadd_length gateW.length _ _
        (fun r hr => by
          obtain ⟨tok, _, rfl⟩ := List.mem_map.mp hr
          exact List.length_map ..)
        (List.length_replicate ..), hg] at this
    simp at this
  · intro xo bo hbo hxeq
    rw [branchWeights_getD e gateW xo bo hbo, hxeq]

/-- Witness for C8: a single-item, single-token batch with the constant
    exponential surrogate has gate weights summing to 1. -/
theorem C8_branch_gate_weights_witness :
    ((branchWeights (fun _ => 1) [[1], [1], [1]] [[[2]]]).getD 0 []).sum =
      1 :=
  (C8_branch_gate_weights (fun _ => 1) [[1], [1], [1]] [[[2]]]
    (fun _ => one_pos) rfl 0 (by norm_num)).2.2.1

end NanoPoor

namespace NanoPoor

/-- C10: the output of `Attn.forward` is independent of the
    `block_compressor` weights and the `intra_block_pos_encoding` parameter:
    two modules identical in every other parameter produce identical outputs
    for every input, mode, random draw and cache state, because the
    token-compression pathway (`_compress_tokens`) is never invoked by
    `forward`. -/
theorem C10_forward_independent_of_compressor (P1 P2 : Attn)
    (e1 : P1.nHead = P2.nHead) (e2 : P1.nopeHeadDim = P2.nopeHeadDim)
    (e3 : P1.ropeHeadDim = P2.ropeHeadDim) (e4 : P1.vHeadDim = P2.vHeadDim)
    (e5 : P1.ctxLen = P2.ctxLen) (e6 : P1.windowSize = P2.windowSize)
    (e7 : P1.numTokensToKeep = P2.numTokensToKeep)
    (e8 : P1.blockSize = P2.blockSize) (e9 : P1.rmsEps = P2.rmsEps)
    (e10 : P1.dropoutP = P2.dropoutP) (e11 : P1.lambV = P2.lambV)
    (e12 : P1.compress_q_linear = P2.compress_q_linear)
    (e13 : P1.q_norm = P2.q_norm)
    (e14 : P1.decompress_q_nope = P2.decompress_q_nope)
    (e15 : P1.decompress_q_rope = P2.decompress_q_rope)
    (e16 : P1.compress_kv_linear = P2.compress_kv_linear)
    (e17 : P1.kv_norm = P2.kv_norm)
    (e18 : P1.decompress_k_nope = P2.decompress_k_nope)
    (e19 : P1.decompress_v_linear = P2.decompress_v_linear)
    (e20 : P1.k_rope_linear = P2.k_rope_linear)
    (e21 : P1.importance_scorer = P2.importance_scorer)
    (e22 : P1.selection_k = P2.selection_k)
    (e23 : P1.selection_v = P2.selection_v)
    (e24 : P1.window_k = P2.window_k) (e25 : P1.window_v = P2.window_v)
    (e26 : P1.branch_gate = P2.branch_gate) (e27 : P1.proj = P2.proj)
    (e28 : P1.cosTab = P2.cosTab) (e29 : P1.sinTab = P2.sinTab) :
    ∀ (pr : Prims) (training : Bool) (rs : RandState)
      (cache : Option InferCache) (x : List Mat)
      (v1 : Option (List (List Mat))),
      Attn.forward P1 pr training rs cache x v1 =
        Attn.forward P2 pr training rs cache x v1 := by
  cases P1
  cases P2
  dsimp only at e1 e2 e3 e4 e5 e6 e7 e8 e9 e10
  dsimp only at e11 e12 e13 e14 e15 e16 e17 e18 e19 e20
  dsimp only at e21 e22 e23 e24 e25 e26 e27 e28 e29
  subst e1 e2 e3 e4 e5 e6 e7 e8 e9 e10 e11 e12 e13 e14 e15 e16 e17 e18 e19
    e20 e21 e22 e23 e24 e25 e26 e27 e28 e29
  intro pr training rs cache x v1
  rfl

end NanoPoor

namespace NanoPoor

/-- Witness for C10: two concrete one-head modules that differ only in the
    block-compressor weights and the intra-block positional encoding produce
    the same inference-mode forward output on a one-token input. -/
theorem C10_forward_independent_of_compressor_witness :
    Attn.forward
      { nHead := 1, nopeHeadDim := 1, ropeHeadDim := 2, vHeadDim := 1,
        ctxLen := 4, windowSize := 2, numTokensToKeep := 1, blockSize := 2,
        rmsEps := 0, dropoutP := 0, lambV := 1/2,
        compress_q_linear := [[1]], q_norm := [1],
        decompress_q_nope := [[1]], decompress_q_rope := [[1], [1]],
        compress_kv_linear := [[1]], kv_norm := [1],
        decompress_k_nope := [[1]], decompress_v_linear := [[1]],
        k_rope_linear := [[1], [1]], importance_scorer := [1],
        selection_k := [[1], [1], [1]], selection_v := [[1]],
        window_k := [[1], [1], [1]], window_v := [[1]],
        block_compressor_1 := [[1, 1]], block_compressor_2 := [[2]],
        intra_block_pos_encoding := [[3], [4]],
        branch_gate := [[1], [1], [1]], proj := [[1]],
        cosTab := [[1], [1], [1], [1]], sinTab := [[0], [0], [0], [0]] }
      ⟨fun _ => 1, fun _ => 1, fun _ => 1⟩ false
      ⟨fun _ _ _ _ => 1, fun _ _ _ _ => 1, fun _ _ _ _ => 1, fun _ _ _ => 1⟩
      none [[[1]]] none =
    Attn.forward
      { nHead := 1, nopeHeadDim := 1, ropeHeadDim := 2, vHeadDim := 1,
        ctxLen := 4, windowSize := 2, numTokensToKeep := 1, blockSize := 2,
        rmsEps := 0, dropoutP := 0, lambV := 1/2,
        compress_q_linear := [[1]], q_norm := [1],
        decompress_q_nope := [[1]], decompress_q_rope := [[1], [1]],
        compress_kv_linear := [[1]], kv_norm := [1],
        decompress_k_nope := [[1]], decompress_v_linear := [[1]],
        k_rope_linear := [[1], [1]], importance_scorer := [1],
        selection_k := [[1], [1], [1]], selection_v := [[1]],
        window_k := [[1], [1], [1]], window_v := [[1]],
        block_compressor_1 := [[5, 5]], block_compressor_2 := [[6]],
        intra_block_pos_encoding := [[7], [8]],
        branch_gate := [[1], [1], [1]], proj := [[1]],
        cosTab := [[1], [1], [1], [1]], sinTab := [[0], [0], [0], [0]] }
      ⟨fun _ => 1, fun _ => 1, fun _ => 1⟩ false
      ⟨fun _ _ _ _ => 1, fun _ _ _ _ => 1, fun _ _ _ _ => 1, fun _ _ _ => 1⟩
      none [[[1]]] none :=
  C10_forward_independent_of_compressor _ _ rfl rfl rfl rfl rfl rfl rfl rfl
    rfl rfl rfl rfl rfl rfl rfl rfl rfl rfl rfl rfl rfl rfl rfl rfl rfl rfl
    rfl rfl rfl _ _ _ _ _ _

end NanoPoor
